import Mathlib

/-!
# REWEIGHT_GEOMFES: the geometric free-energy log-weight

A shallow embedding of `ReweightGeomFES::getLogWeight`
(`src/droplet/fes/ReweightGeomFES.cpp`, lines 125-138) and of the constructor
(lines 118-123), followed by the properties proved about them.

Conventions of the embedding.

* `double` is an arbitrary field `α`; results about logarithms take `α = ℝ`.
* `int ndim` is a natural number.
* A C++ exception is the `error` branch of `Except Error`.
* The host accessor `getProjection(i, j)` is a function `Nat → Nat → α`; every
  request made to it is recorded, in order, in the assembly state.
-/

namespace PLMD

/-- The error taxonomy of the core. -/
inductive Error where
  | InvalidDimension
  | IndexOutOfRange
  | SingularMatrix
  | NumericalDomainError
  | UnknownStrategy
  | InvalidConfiguration
  deriving DecidableEq, Repr

/-- Modelled from the spec: the dense matrix type `Matrix<double>` of
`tools/Matrix.h`, which is not among the sources. An `n × n` matrix of scalars
addressed by a row and a column index. -/
abbrev DenseMatrix (n : Nat) (α : Type) : Type := Matrix (Fin n) (Fin n) α

namespace DenseMatrix

variable {α : Type} {n : Nat}

/-- Modelled from the spec: `assemble(n)` of the missing matrix type, the
declaration `Matrix<double> grads(ndim,ndim)`: an `n × n` zero-initialised
matrix, failing with `InvalidDimension` if `n ≤ 0`. -/
def assemble [Zero α] (n : Nat) : Except Error (DenseMatrix n α) :=
  if n = 0 then .error .InvalidDimension else .ok (fun _ _ => 0)

/-- Modelled from the spec: `set(i, j, value)` of the missing matrix type, the
assignment `grads(i,j) = value`: bounds-checked, failing with
`IndexOutOfRange` if `i` or `j` is not in `[0, n)`. -/
def set (M : DenseMatrix n α) (i j : Nat) (value : α) : Except Error (DenseMatrix n α) :=
  if i < n ∧ j < n then
    .ok (fun a b => if a.val = i ∧ b.val = j then value else M a b)
  else .error .IndexOutOfRange

/-- Modelled from the spec: `get(i, j)` of the missing matrix type:
bounds-checked, failing with `IndexOutOfRange` if `i` or `j` is not in
`[0, n)`. -/
def get (M : DenseMatrix n α) (i j : Nat) : Except Error α :=
  if h : i < n ∧ j < n then .ok (M ⟨i, h.1⟩ ⟨j, h.2⟩) else .error .IndexOutOfRange

end DenseMatrix

/-- Modelled from the spec: the kernel `logdet` of `tools/Matrix.h`, which is
not among the sources. It computes `ln(det(M))`; a singular matrix (a zero
pivot) fails with `SingularMatrix`, a negative determinant fails with
`NumericalDomainError`. The logarithm of the scalar type is the parameter
`ln`. -/
def logDeterminant {α : Type} [LinearOrderedField α] (ln : α → α) (n : Nat)
    (M : DenseMatrix n α) : Except Error α :=
  if M.det = 0 then .error .SingularMatrix
  else if M.det < 0 then .error .NumericalDomainError
  else .ok (ln M.det)

/-- The kernel as the claims on the returned value take it: the total function
`ln(det(.))`, which never fails. The logarithm of the scalar type is the
parameter `ln`. -/
def logdetTotal {α : Type} [CommRing α] (ln : α → α) (n : Nat)
    (M : DenseMatrix n α) : Except Error α :=
  .ok (ln M.det)

/-- The state of the assembly loop of `getLogWeight`: the local matrix `grads`
and the requests made to the host accessor `getProjection` so far. -/
structure AssemblyState (n : Nat) (α : Type) where
  grads : DenseMatrix n α
  requests : List (Nat × Nat)

/-- The counted loop `for (int k = lo; k < hi; ++k) body`. -/
def forLoop {σ : Type} (lo hi : Nat) (body : Nat → σ → Except Error σ) (s : σ) :
    Except Error σ :=
  (List.range' lo (hi - lo)).foldlM (fun acc k => body k acc) s

variable {α : Type}

/-- Line 132, `grads(i,j)=grads(j,i)=getProjection(i,j);`: one request to the
host, whose value is assigned to `grads(j,i)` and then to `grads(i,j)`. -/
def assignPair {n : Nat} (getProjection : Nat → Nat → α) (i j : Nat)
    (st : AssemblyState n α) : Except Error (AssemblyState n α) := do
  let v := getProjection i j
  let g1 ← st.grads.set j i v
  let g2 ← g1.set i j v
  pure { grads := g2, requests := st.requests ++ [(i, j)] }

/-- Lines 130-134: the two nested loops of `getLogWeight`, run on the matrix
and request log of `st`. -/
def fillGrads (ndim : Nat) (getProjection : Nat → Nat → α)
    (st : AssemblyState ndim α) : Except Error (AssemblyState ndim α) :=
  forLoop 0 ndim (fun i s => forLoop i ndim (fun j t => assignPair getProjection i j t) s) st

/-- Lines 126-134: allocation of `grads` followed by the assembly loops. -/
def assembleGrads [Zero α] (ndim : Nat) (getProjection : Nat → Nat → α) :
    Except Error (AssemblyState ndim α) := do
  let grads ← DenseMatrix.assemble ndim
  fillGrads ndim getProjection { grads := grads, requests := [] }

/-- The method `ReweightGeomFES::getLogWeight` (lines 125-138). The kernel
`logdet`, whose code is not among the sources, is a parameter. -/
def getLogWeight [Field α] (ndim : Nat)
    (logdet : (n : Nat) → DenseMatrix n α → Except Error α)
    (getProjection : Nat → Nat → α) : Except Error α := do
  let st ← assembleGrads ndim getProjection
  let val ← logdet ndim st.grads
  pure (val / 2)

/-- The matrix the claims call `G`: entry `(a, b)` is the host value of the
unordered pair, `p(min(a,b), max(a,b))`. -/
def gramMatrix (n : Nat) (p : Nat → Nat → α) : DenseMatrix n α :=
  fun a b => p (min a.val b.val) (max a.val b.val)

/-- The pairs `(i, j)` with `i ≤ j < n`, row by row. -/
def upperPairs (n : Nat) : List (Nat × Nat) :=
  (List.range' 0 n).flatMap (fun i => (List.range' i (n - i)).map (fun j => (i, j)))

/-! ## Construction -/

/-- The options a constructor receives from the host: the ordered list of
coordinates given under `ARG` and the remaining key/value pairs of the input
line. -/
structure ActionOptions where
  args : List String
  keys : List (String × String)

/-- The base-class part of a strategy object: the coordinates it reads and the
keys of its input line that nobody has consumed yet. -/
structure ReweightBase where
  arguments : List String
  unread : List (String × String)

/-- Modelled from the spec: the constructor `ReweightBase(ao)` of
`bias/ReweightBase.h`, which is not among the sources. It takes the coordinate
list from the options; an empty list (`n = 0`) is invalid and fails the
configuration-time validation with `InvalidConfiguration`. The strategy declares
no option beyond the coordinate list (`registerKeywords` only adds `ARG`), so
every other key stays unread. -/
def ReweightBase.new (ao : ActionOptions) : Except Error ReweightBase :=
  if ao.args.length = 0 then .error .InvalidConfiguration
  else .ok { arguments := ao.args, unread := ao.keys }

/-- Modelled from the spec: `checkRead()` of the missing base class: the
construction fails with `InvalidConfiguration` if an unrecognised key was
given. -/
def ReweightBase.checkRead (self : ReweightBase) : Except Error Unit :=
  if self.unread.length = 0 then .ok () else .error .InvalidConfiguration

/-- Modelled from the spec: `getNumberOfArguments()` of the missing base class:
the number of configured coordinates. -/
def ReweightBase.getNumberOfArguments (self : ReweightBase) : Nat :=
  self.arguments.length

/-- The class `ReweightGeomFES : public ReweightBase` (lines 101-109); it adds
no data member. -/
structure ReweightGeomFES where
  base : ReweightBase

/-- The constructor `ReweightGeomFES::ReweightGeomFES` (lines 118-123): the
base-class constructor, then `checkRead()`. -/
def ReweightGeomFES.new (ao : ActionOptions) : Except Error ReweightGeomFES := do
  let base ← ReweightBase.new ao
  base.checkRead
  pure { base := base }

/-- What one call of the method can reach: the strategy object and the
gradient data the host exposes through `getProjection`. -/
structure Session (α : Type) where
  action : ReweightGeomFES
  projection : Nat → Nat → α

/-- One query of the log-weight by the host: `getLogWeight` run with
`ndim = getNumberOfArguments()` on the host data of the session. The body
assigns only to its locals `grads` and `val`, so the session after the call is
the session before it. -/
def Session.query [Field α] (logdet : (n : Nat) → DenseMatrix n α → Except Error α)
    (s : Session α) : Except Error α × Session α :=
  (getLogWeight s.action.base.getNumberOfArguments logdet s.projection, s)

/-! ## Loop lemmas -/

theorem forLoop_empty {σ : Type} (lo hi : Nat) (h : hi ≤ lo)
    (body : Nat → σ → Except Error σ) (s : σ) : forLoop lo hi body s = .ok s := by
  unfold forLoop
  have : hi - lo = 0 := by omega
  rw [this]
  rfl

theorem forLoop_succ {σ : Type} (lo k : Nat) (h : lo ≤ k)
    (body : Nat → σ → Except Error σ) (s : σ) :
    forLoop lo (k + 1) body s = forLoop lo k body s >>= body k := by
  unfold forLoop
  have h1 : k + 1 - lo = (k - lo) + 1 := by omega
  have h2 : lo + (k - lo) = k := by omega
  rw [h1, List.range'_1_concat, List.foldlM_append, h2]
  congr 1
  funext t
  simp [List.foldlM]

/-- One assignment of line 132 with both indices in range. -/
theorem assignPair_ok {n : Nat} (p : Nat → Nat → α) (i j : Nat) (hi : i < n) (hj : j < n)
    (st : AssemblyState n α) :
    assignPair p i j st = .ok
      { grads := fun a b =>
          if (a.val = i ∧ b.val = j) ∨ (a.val = j ∧ b.val = i) then p i j else st.grads a b
        requests := st.requests ++ [(i, j)] } := by
  unfold assignPair DenseMatrix.set
  simp only [hi, hj, and_self, if_true]
  show Except.ok _ = Except.ok _
  congr 2
  funext a b
  by_cases h1 : a.val = i ∧ b.val = j
  · simp [h1]
  · by_cases h2 : a.val = j ∧ b.val = i
    · simp [h2]
    · simp [h1, h2]

/-- The inner loop of row `i`, run up to column `k`: it succeeds, has written
exactly the entries of the pairs `(i, j)`, `i ≤ j < k`, and has made one
request for each of them. -/
theorem innerLoop_ok {n : Nat} (p : Nat → Nat → α) (i k : Nat) (hik : i ≤ k) (hk : k ≤ n)
    (st : AssemblyState n α) :
    forLoop i k (fun j t => assignPair p i j t) st = .ok
      { grads := fun a b =>
          if min a.val b.val = i ∧ max a.val b.val < k then p i (max a.val b.val)
          else st.grads a b
        requests := st.requests ++ (List.range' i (k - i)).map (fun j => (i, j)) } := by
  obtain ⟨g, r⟩ := st
  induction k, hik using Nat.le_induction with
  | base =>
    rw [forLoop_empty i i (Nat.le_refl i)]
    congr 2
    · funext a b
      have : ¬ (min a.val b.val = i ∧ max a.val b.val < i) := by omega
      rw [if_neg this]
    · simp
  | succ k hik ih =>
    have hkn : k < n := by omega
    have hin : i < n := by omega
    rw [forLoop_succ i k hik, ih (by omega)]
    show assignPair p i k _ = _
    rw [assignPair_ok p i k hin hkn]
    congr 2
    · funext a b
      by_cases h1 : (a.val = i ∧ b.val = k) ∨ (a.val = k ∧ b.val = i)
      · have h2 : min a.val b.val = i ∧ max a.val b.val < k + 1 := by omega
        have h3 : max a.val b.val = k := by omega
        rw [if_pos h1, if_pos h2, h3]
      · rw [if_neg h1]
        dsimp only
        by_cases h2 : min a.val b.val = i ∧ max a.val b.val < k
        · have h3 : min a.val b.val = i ∧ max a.val b.val < k + 1 := by omega
          rw [if_pos h2, if_pos h3]
        · have h3 : ¬ (min a.val b.val = i ∧ max a.val b.val < k + 1) := by omega
          rw [if_neg h2, if_neg h3]
    · have h1 : k + 1 - i = (k - i) + 1 := by omega
      have h2 : i + (k - i) = k := by omega
      rw [h1, List.range'_1_concat, List.map_append, h2]
      simp

/-- The outer loop run up to row `k`: it succeeds, has written exactly the
entries whose smaller index is below `k`, each with the host value of its
unordered pair, and has made one request per pair. -/
theorem outerLoop_ok {n : Nat} (p : Nat → Nat → α) (k : Nat) (hk : k ≤ n)
    (st : AssemblyState n α) :
    forLoop 0 k (fun i s => forLoop i n (fun j t => assignPair p i j t) s) st = .ok
      { grads := fun a b =>
          if min a.val b.val < k then p (min a.val b.val) (max a.val b.val)
          else st.grads a b
        requests := st.requests ++
          (List.range' 0 k).flatMap (fun i => (List.range' i (n - i)).map (fun j => (i, j))) } := by
  obtain ⟨g, r⟩ := st
  induction k with
  | zero =>
    rw [forLoop_empty 0 0 (Nat.le_refl 0)]
    congr 2
    simp
  | succ k ih =>
    rw [forLoop_succ 0 k (Nat.zero_le k), ih (by omega)]
    show forLoop k n _ _ = _
    rw [innerLoop_ok p k n (by omega) (Nat.le_refl n)]
    congr 2
    · funext a b
      have hb : max a.val b.val < n := by
        have := a.isLt
        have := b.isLt
        omega
      by_cases h1 : min a.val b.val = k
      · have h3 : min a.val b.val < k + 1 := by omega
        rw [if_pos ⟨h1, hb⟩, if_pos h3, h1]
      · have h1n : ¬ (min a.val b.val = k ∧ max a.val b.val < n) := fun h => h1 h.1
        rw [if_neg h1n]
        dsimp only
        by_cases h2 : min a.val b.val < k
        · have h3 : min a.val b.val < k + 1 := by omega
          rw [if_pos h2, if_pos h3]
        · have h3 : ¬ min a.val b.val < k + 1 := by omega
          rw [if_neg h2, if_neg h3]
    · rw [List.range'_1_concat, List.flatMap_append]
      simp

/-- The assembly loops on any `n × n` matrix: they succeed, the matrix they
leave is `gramMatrix n p` whatever it held before, and the requests made are
`upperPairs n`. -/
theorem fillGrads_ok (n : Nat) (p : Nat → Nat → α) (st : AssemblyState n α) :
    fillGrads n p st = .ok
      { grads := gramMatrix n p, requests := st.requests ++ upperPairs n } := by
  unfold fillGrads
  rw [outerLoop_ok p n (Nat.le_refl n)]
  congr 2
  funext a b
  have hb : min a.val b.val < n := by
    have := a.isLt
    omega
  simp [hb, gramMatrix]

/-- Allocation and assembly for `n ≥ 1`. -/
theorem assembleGrads_ok [Zero α] (n : Nat) (hn : 1 ≤ n) (p : Nat → Nat → α) :
    assembleGrads n p = .ok { grads := gramMatrix n p, requests := upperPairs n } := by
  unfold assembleGrads DenseMatrix.assemble
  have h0 : n ≠ 0 := by omega
  simp only [h0, if_false]
  show fillGrads n p _ = _
  rw [fillGrads_ok]
  simp

/-- The method reduces to the kernel on `gramMatrix n p`, for `n ≥ 1`. -/
theorem getLogWeight_eq [Field α] (n : Nat) (hn : 1 ≤ n)
    (logdet : (m : Nat) → DenseMatrix m α → Except Error α) (p : Nat → Nat → α) :
    getLogWeight n logdet p = (logdet n (gramMatrix n p)).map (fun v => v / 2) := by
  unfold getLogWeight
  rw [assembleGrads_ok n hn p]
  show (logdet n (gramMatrix n p) >>= fun val => pure (val / 2)) = _
  cases logdet n (gramMatrix n p) <;> rfl

/-! ## The request list -/

theorem mem_upperPairs (n i j : Nat) : (i, j) ∈ upperPairs n ↔ i ≤ j ∧ j < n := by
  unfold upperPairs
  simp only [List.mem_flatMap, List.mem_map, List.mem_range'_1, Prod.mk.injEq]
  constructor
  · rintro ⟨a, ha, b, hb, rfl, rfl⟩
    omega
  · rintro ⟨h1, h2⟩
    exact ⟨i, by omega, j, by omega, rfl, rfl⟩

theorem nodup_upperPairs (n : Nat) : (upperPairs n).Nodup := by
  unfold upperPairs
  rw [List.nodup_flatMap]
  constructor
  · intro i _
    exact (List.nodup_range' i (n - i)).map (fun a b h => (Prod.mk.inj h).2)
  · refine (List.pairwise_lt_range' 0 n).imp ?_
    intro a b hab
    simp only [Function.onFun, List.disjoint_left, List.mem_map]
    rintro x ⟨c, _, rfl⟩ ⟨d, _, h⟩
    have := (Prod.mk.inj h).1
    omega

theorem rowLengths_sum (k s : Nat) :
    ((List.range' s k).map (fun i => s + k - i)).sum * 2 = k * (k + 1) := by
  induction k generalizing s with
  | zero => simp
  | succ k ih =>
    rw [List.range'_succ, List.map_cons, List.sum_cons]
    have h := ih (s + 1)
    have e : (fun i => s + (k + 1) - i) = (fun i => s + 1 + k - i) := by
      funext i
      omega
    rw [e, Nat.add_mul, h]
    have : s + (k + 1) - s = k + 1 := by omega
    rw [this]
    ring

theorem length_upperPairs (n : Nat) : (upperPairs n).length = n * (n + 1) / 2 := by
  unfold upperPairs
  rw [List.length_flatMap]
  have e : (List.map (List.length ∘ fun i => (List.range' i (n - i)).map (fun j => (i, j)))
      (List.range' 0 n)) = (List.range' 0 n).map (fun i => 0 + n - i) := by
    apply List.map_congr_left
    intro i _
    simp
  rw [e]
  have h := rowLengths_sum n 0
  omega

theorem count_of_nodup {β : Type} [BEq β] [LawfulBEq β] (l : List β) (a : β)
    (hl : l.Nodup) : l.count a = if a ∈ l then 1 else 0 := by
  induction l with
  | nil => simp
  | cons b l ih =>
    obtain ⟨hb, hl2⟩ := List.nodup_cons.1 hl
    rw [List.count_cons, ih hl2]
    by_cases hab : b = a
    · subst hab
      simp [hb]
    · have h1 : ¬ a = b := fun h => hab h.symm
      simp [hab, h1]

theorem count_upperPairs (n i j : Nat) :
    (upperPairs n).count (i, j) = if i ≤ j ∧ j < n then 1 else 0 := by
  rw [count_of_nodup _ _ (nodup_upperPairs n)]
  simp only [mem_upperPairs]

/-! ## The kernel -/

theorem logDeterminant_pos {β : Type} [LinearOrderedField β] (ln : β → β) (n : Nat)
    (M : DenseMatrix n β) (h : 0 < M.det) : logDeterminant ln n M = .ok (ln M.det) := by
  unfold logDeterminant
  rw [if_neg (ne_of_gt h), if_neg (not_lt.2 (le_of_lt h))]

theorem logDeterminant_zero {β : Type} [LinearOrderedField β] (ln : β → β) (n : Nat)
    (M : DenseMatrix n β) (h : M.det = 0) : logDeterminant ln n M = .error .SingularMatrix := by
  unfold logDeterminant
  rw [if_pos h]

theorem logDeterminant_neg {β : Type} [LinearOrderedField β] (ln : β → β) (n : Nat)
    (M : DenseMatrix n β) (h : M.det < 0) :
    logDeterminant ln n M = .error .NumericalDomainError := by
  unfold logDeterminant
  rw [if_neg (ne_of_lt h), if_pos h]

/-- A host projection that is diagonal gives a diagonal matrix. -/
theorem gramMatrix_diagonal {β : Type} [Zero β] (n : Nat) (d : Nat → β) (p : Nat → Nat → β)
    (hdiag : ∀ i, i < n → p i i = d i)
    (hoff : ∀ i j, i < n → j < n → i ≠ j → p i j = 0) :
    gramMatrix n p = Matrix.diagonal (fun a : Fin n => d a.val) := by
  funext a b
  by_cases hab : a = b
  · subst hab
    simp [gramMatrix, hdiag a.val a.isLt]
  · have hv : a.val ≠ b.val := fun h => hab (Fin.ext h)
    rw [Matrix.diagonal_apply_ne _ hab]
    have h1 : min a.val b.val < n := by
      have := a.isLt
      omega
    have h2 : max a.val b.val < n := by
      have := a.isLt
      have := b.isLt
      omega
    exact hoff _ _ h1 h2 (by omega)

theorem det_gramMatrix_two {β : Type} [CommRing β] (p : Nat → Nat → β) :
    (gramMatrix 2 p).det = p 0 0 * p 1 1 - p 0 1 * p 0 1 := by
  rw [Matrix.det_fin_two]
  simp [gramMatrix]

theorem det_gramMatrix_one {β : Type} [CommRing β] (p : Nat → Nat → β) :
    (gramMatrix 1 p).det = p 0 0 := by
  rw [Matrix.det_fin_one]
  simp [gramMatrix]

/-! ## Dependence on the host data -/

/-- The method fails at allocation when no coordinate is configured. -/
theorem getLogWeight_zero [Field α] (logdet : (m : Nat) → DenseMatrix m α → Except Error α)
    (p : Nat → Nat → α) : getLogWeight 0 logdet p = .error .InvalidDimension := by
  rfl

/-- The assembled matrix reads the host data on the pairs `i ≤ j < n` only. -/
theorem gramMatrix_congr (n : Nat) (p q : Nat → Nat → α)
    (h : ∀ i j, i ≤ j → j < n → p i j = q i j) : gramMatrix n p = gramMatrix n q := by
  funext a b
  have ha := a.isLt
  have hb := b.isLt
  exact h _ _ min_le_max (by omega)

/-- On a symmetric host projection the assembled matrix is the projection
itself. -/
theorem gramMatrix_of_symmetric (n : Nat) (p : Nat → Nat → α)
    (hsym : ∀ i j, i < n → j < n → p i j = p j i) (a b : Fin n) :
    gramMatrix n p a b = p a.val b.val := by
  unfold gramMatrix
  rcases Nat.le_total a.val b.val with h | h
  · rw [Nat.min_eq_left h, Nat.max_eq_right h]
  · rw [Nat.min_eq_right h, Nat.max_eq_left h]
    exact hsym _ _ b.isLt a.isLt

/-- Reordering the coordinates of a symmetric host projection permutes rows
and columns of the assembled matrix alike, which keeps its determinant. -/
theorem det_gramMatrix_reorder {β : Type} [CommRing β] (n : Nat) (s : Equiv.Perm (Fin n))
    (p q : Nat → Nat → β) (hsym : ∀ i j, i < n → j < n → p i j = p j i)
    (hq : ∀ a b : Fin n, q a.val b.val = p (s a).val (s b).val) :
    (gramMatrix n q).det = (gramMatrix n p).det := by
  have hqsym : ∀ i j, i < n → j < n → q i j = q j i := by
    intro i j hi hj
    have h1 := hq ⟨i, hi⟩ ⟨j, hj⟩
    have h2 := hq ⟨j, hj⟩ ⟨i, hi⟩
    simp only at h1 h2
    rw [h1, h2]
    exact hsym _ _ (s ⟨i, hi⟩).isLt (s ⟨j, hj⟩).isLt
  have e : gramMatrix n q = (gramMatrix n p).submatrix s s := by
    funext a b
    rw [Matrix.submatrix_apply, gramMatrix_of_symmetric n q hqsym,
      gramMatrix_of_symmetric n p hsym, hq]
  rw [e, Matrix.det_submatrix_equiv_self]

/-- A kernel that reads its matrix through the determinant only gives the same
log-weight on matrices of equal determinant. -/
theorem getLogWeight_congr_det [Field α] (n : Nat) (f : α → Except Error α)
    (p q : Nat → Nat → α) (h : (gramMatrix n q).det = (gramMatrix n p).det) :
    getLogWeight n (fun _ M => f M.det) q = getLogWeight n (fun _ M => f M.det) p := by
  rcases Nat.eq_zero_or_pos n with h0 | hpos
  · subst h0
    rw [getLogWeight_zero, getLogWeight_zero]
  · rw [getLogWeight_eq n hpos, getLogWeight_eq n hpos, h]

/-! ## Construction lemmas -/

/-- The constructor succeeds exactly on a non-empty coordinate list with no
other key. -/
theorem ReweightGeomFES.new_eq (ao : ActionOptions) :
    ReweightGeomFES.new ao =
      if ao.args.length = 0 then .error .InvalidConfiguration
      else if ao.keys.length = 0 then
        .ok { base := { arguments := ao.args, unread := ao.keys } }
      else .error .InvalidConfiguration := by
  unfold ReweightGeomFES.new ReweightBase.new
  by_cases h0 : ao.args.length = 0
  · rw [if_pos h0, if_pos h0]
    rfl
  · rw [if_neg h0, if_neg h0]
    show (ReweightBase.checkRead { arguments := ao.args, unread := ao.keys } >>= fun _ =>
      (pure ({ base := { arguments := ao.args, unread := ao.keys } } : ReweightGeomFES) :
        Except Error ReweightGeomFES)) = _
    unfold ReweightBase.checkRead
    by_cases h1 : ao.keys.length = 0
    · rw [if_pos h1, if_pos h1]
      rfl
    · rw [if_neg h1, if_neg h1]
      rfl

/-! ## The claims -/

/-- C1: for `n ≥ 1` and every host projection `p`, `getLogWeight` returns
`logdet(G) / 2`, where `G` is the `n × n` matrix with
`G[i][j] = p(min(i,j), max(i,j))`: whatever the kernel `logdet` is, the method
returns half of what the kernel returns on `G` (and fails as the kernel fails);
with the kernel taken as the real function `ln(det(.))` the value returned is
`ln(det(G)) / 2` (`Real.log` is the real logarithm wherever `det(G) > 0`). -/
theorem getLogWeight_half_logdet (n : Nat) (hn : 1 ≤ n) (p : Nat → Nat → ℝ) :
    (∀ i j, i < n → j < n → (gramMatrix n p).get i j = .ok (p (min i j) (max i j))) ∧
    (∀ logdet : (m : Nat) → DenseMatrix m ℝ → Except Error ℝ,
      getLogWeight n logdet p = (logdet n (gramMatrix n p)).map (fun v => v / 2)) ∧
    getLogWeight n (logdetTotal Real.log) p = .ok (Real.log (gramMatrix n p).det / 2) := by
  refine ⟨?_, ?_, ?_⟩
  · intro i j hi hj
    simp [DenseMatrix.get, hi, hj, gramMatrix]
  · intro logdet
    exact getLogWeight_eq n hn logdet p
  · rw [getLogWeight_eq n hn]
    rfl

theorem getLogWeight_half_logdet_witness :
    1 ≤ 2 ∧
    getLogWeight 2 (logdetTotal Real.log) (fun i j => if i = j then 2 else 1) =
      .ok (Real.log (gramMatrix 2 (fun i j => if i = j then (2 : ℝ) else 1)).det / 2) :=
  ⟨by decide, (getLogWeight_half_logdet 2 (by decide) (fun i j => if i = j then 2 else 1)).2.2⟩

/-- C2: for every `n` and every host projection `p`, also one whose values for
`(i, j)` and `(j, i)` disagree, the assembly loops of `getLogWeight` succeed and
leave an exactly symmetric matrix; each of its `n * n` entries holds the host
value `p(min(i,j), max(i,j))` whatever the matrix held before the loops, so no
entry keeps its initial value; for `n ≥ 1` this is the matrix `getLogWeight`
assembles from its freshly allocated `grads`. -/
theorem assembled_matrix_symmetric [Zero α] (n : Nat) (p : Nat → Nat → α)
    (g0 : DenseMatrix n α) :
    ∃ st, fillGrads n p { grads := g0, requests := [] } = .ok st ∧
      (∀ a b : Fin n, st.grads a b = st.grads b a) ∧
      (∀ a b : Fin n, st.grads a b = p (min a.val b.val) (max a.val b.val)) ∧
      (1 ≤ n → assembleGrads n p = .ok st) := by
  refine ⟨_, fillGrads_ok n p _, ?_, ?_, ?_⟩
  · intro a b
    simp only [gramMatrix, Nat.min_comm b.val a.val, Nat.max_comm b.val a.val]
  · intro a b
    rfl
  · intro hn
    rw [assembleGrads_ok n hn p]
    rfl

theorem assembled_matrix_symmetric_witness :
    ∃ st, fillGrads 2 (fun i j => (10 * i + j : ℤ)) { grads := fun _ _ => 7, requests := [] }
        = .ok st ∧
      st.grads 0 1 = 1 ∧ st.grads 1 0 = 1 ∧ st.grads 0 0 = 0 ∧ st.grads 1 1 = 11 ∧
      assembleGrads 2 (fun i j => (10 * i + j : ℤ)) = .ok st := by
  obtain ⟨st, h1, _, h3, h4⟩ :=
    assembled_matrix_symmetric 2 (fun i j => (10 * i + j : ℤ)) (fun _ _ => 7)
  refine ⟨st, h1, ?_, ?_, ?_, ?_, h4 (by decide)⟩
  · rw [h3]
    rfl
  · rw [h3]
    rfl
  · rw [h3]
    rfl
  · rw [h3]
    rfl

/-- C3: for every `n`, the assembly loops of one call of `getLogWeight` request
the host projection exactly once for each pair `(i, j)` with `i ≤ j < n` and
never for any other pair, so they make exactly `n * (n + 1) / 2` requests, and
the value received for `(i, j)` is the one stored in `G[i][j]` and in
`G[j][i]`; for `n ≥ 1` these are the requests and the matrix of the call, which
runs the loops on its freshly allocated `grads`. -/
theorem getLogWeight_requests [Zero α] (n : Nat) (p : Nat → Nat → α)
    (g0 : DenseMatrix n α) :
    ∃ st, fillGrads n p { grads := g0, requests := [] } = .ok st ∧
      (∀ i j, st.requests.count (i, j) = if i ≤ j ∧ j < n then 1 else 0) ∧
      st.requests.length = n * (n + 1) / 2 ∧
      (∀ a b : Fin n, a.val ≤ b.val →
        st.grads a b = p a.val b.val ∧ st.grads b a = p a.val b.val) ∧
      (1 ≤ n → assembleGrads n p = .ok st) := by
  refine ⟨_, fillGrads_ok n p _, ?_, ?_, ?_, ?_⟩
  · intro i j
    simp only [List.nil_append]
    exact count_upperPairs n i j
  · simp only [List.nil_append]
    exact length_upperPairs n
  · intro a b hab
    simp only [gramMatrix]
    rw [Nat.min_eq_left hab, Nat.max_eq_right hab, Nat.min_eq_right hab, Nat.max_eq_left hab]
    exact ⟨rfl, rfl⟩
  · intro hn
    rw [assembleGrads_ok n hn p]
    rfl

theorem getLogWeight_requests_witness :
    ∃ st, fillGrads 3 (fun i j => (10 * i + j : ℤ)) { grads := fun _ _ => 0, requests := [] }
        = .ok st ∧
      st.requests.count (1, 2) = 1 ∧ st.requests.count (2, 1) = 0 ∧
      st.requests.length = 6 ∧ st.grads 1 2 = 12 ∧ st.grads 2 1 = 12 ∧
      assembleGrads 3 (fun i j => (10 * i + j : ℤ)) = .ok st := by
  obtain ⟨st, h1, h2, h3, h4, h5⟩ :=
    getLogWeight_requests 3 (fun i j => (10 * i + j : ℤ)) (fun _ _ => 0)
  refine ⟨st, h1, ?_, ?_, ?_, ?_, ?_, h5 (by decide)⟩
  · rw [h2]
    decide
  · rw [h2]
    decide
  · rw [h3]
  · exact (h4 1 2 (by decide)).1
  · exact (h4 1 2 (by decide)).2

/-- C4: for `n ≥ 1` and a host projection that yields a diagonal matrix with
diagonal entries `d i > 0`, `getLogWeight` returns half of the sum of the
`ln (d i)`; it returns `0` for the identity matrix of any size `n ≥ 1`, and
`ln 36 / 2` for `G = [[4, 0], [0, 9]]`. -/
theorem getLogWeight_diagonal :
    (∀ (n : Nat) (d : Nat → ℝ) (p : Nat → Nat → ℝ), 1 ≤ n →
      (∀ i, i < n → 0 < d i) → (∀ i, i < n → p i i = d i) →
      (∀ i j, i < n → j < n → i ≠ j → p i j = 0) →
      getLogWeight n (logDeterminant Real.log) p =
        .ok ((∑ i ∈ Finset.range n, Real.log (d i)) / 2)) ∧
    (∀ (n : Nat) (p : Nat → Nat → ℝ), 1 ≤ n →
      (∀ i, i < n → p i i = 1) → (∀ i j, i < n → j < n → i ≠ j → p i j = 0) →
      getLogWeight n (logDeterminant Real.log) p = .ok 0) ∧
    getLogWeight 2 (logDeterminant Real.log)
      (fun i j => if i = j then (if i = 0 then 4 else 9) else 0) = .ok (Real.log 36 / 2) := by
  have main : ∀ (n : Nat) (d : Nat → ℝ) (p : Nat → Nat → ℝ), 1 ≤ n →
      (∀ i, i < n → 0 < d i) → (∀ i, i < n → p i i = d i) →
      (∀ i j, i < n → j < n → i ≠ j → p i j = 0) →
      getLogWeight n (logDeterminant Real.log) p =
        .ok ((∑ i ∈ Finset.range n, Real.log (d i)) / 2) := by
    intro n d p hn hd hdiag hoff
    have hdet : (gramMatrix n p).det = ∏ a : Fin n, d a.val := by
      rw [gramMatrix_diagonal n d p hdiag hoff, Matrix.det_diagonal]
    have hpos : 0 < (gramMatrix n p).det := by
      rw [hdet]
      exact Finset.prod_pos (fun a _ => hd a.val a.isLt)
    rw [getLogWeight_eq n hn, logDeterminant_pos _ _ _ hpos, hdet,
      Real.log_prod _ _ (fun a _ => ne_of_gt (hd a.val a.isLt)), Finset.sum_range]
    rfl
  refine ⟨main, ?_, ?_⟩
  · intro n p hn hdiag hoff
    rw [main n (fun _ => 1) p hn (fun _ _ => one_pos) hdiag hoff]
    simp
  · rw [main 2 (fun i => if i = 0 then 4 else 9)
      (fun i j => if i = j then (if i = 0 then 4 else 9) else 0) (by decide)]
    · have h36 : (36 : ℝ) = 4 * 9 := by norm_num
      rw [h36, Real.log_mul (by norm_num) (by norm_num)]
      simp [Finset.sum_range_succ]
    · intro i _
      split <;> norm_num
    · intro i _
      simp
    · intro i j _ _ hij
      simp [hij]

theorem getLogWeight_diagonal_witness :
    getLogWeight 3 (logDeterminant Real.log) (fun i j => if i = j then 2 else 0) =
      .ok ((∑ _i ∈ Finset.range 3, Real.log 2) / 2) :=
  getLogWeight_diagonal.1 3 (fun _ => 2) (fun i j => if i = j then 2 else 0) (by decide)
    (fun _ _ => by norm_num) (fun i _ => by simp) (fun i j _ _ hij => by simp [hij])

/-- C5: for `n = 1` and a host value `g = p(0,0) > 0`, `getLogWeight` returns
`ln g / 2`, through the general assembly loop (one request, for the pair
`(0, 0)`) and the same kernel call as any other `n`. -/
theorem getLogWeight_one (p : Nat → Nat → ℝ) (hg : 0 < p 0 0) :
    getLogWeight 1 (logDeterminant Real.log) p = .ok (Real.log (p 0 0) / 2) ∧
    assembleGrads 1 p = .ok { grads := gramMatrix 1 p, requests := [(0, 0)] } ∧
    (∀ logdet : (m : Nat) → DenseMatrix m ℝ → Except Error ℝ,
      getLogWeight 1 logdet p = (logdet 1 (gramMatrix 1 p)).map (fun v => v / 2)) := by
  refine ⟨?_, ?_, ?_⟩
  · have hpos : 0 < (gramMatrix 1 p).det := by
      rw [det_gramMatrix_one]
      exact hg
    rw [getLogWeight_eq 1 (by decide), logDeterminant_pos _ _ _ hpos, det_gramMatrix_one]
    rfl
  · rw [assembleGrads_ok 1 (by decide) p]
    rfl
  · intro logdet
    exact getLogWeight_eq 1 (by decide) logdet p

theorem getLogWeight_one_witness :
    getLogWeight 1 (logDeterminant Real.log) (fun _ _ => 5) = .ok (Real.log 5 / 2) :=
  (getLogWeight_one (fun _ _ => 5) (by norm_num)).1

/-- C6: when the assembled matrix has a zero row and column (the host returns
`0` for every pair that involves some coordinate `k < n`, hence `n ≥ 1`),
`getLogWeight` fails with `SingularMatrix`: it returns no number. -/
theorem getLogWeight_singular {β : Type} [LinearOrderedField β] (ln : β → β) (n k : Nat)
    (hk : k < n) (p : Nat → Nat → β)
    (hz : ∀ i j, i ≤ j → j < n → (i = k ∨ j = k) → p i j = 0) :
    getLogWeight n (logDeterminant ln) p = .error .SingularMatrix := by
  have hdet : (gramMatrix n p).det = 0 := by
    apply Matrix.det_eq_zero_of_row_eq_zero (⟨k, hk⟩ : Fin n)
    intro b
    have hb := b.isLt
    apply hz
    · exact min_le_max
    · show max k b.val < n
      omega
    · show min k b.val = k ∨ max k b.val = k
      omega
  rw [getLogWeight_eq n (by omega), logDeterminant_zero _ _ _ hdet]
  rfl

theorem getLogWeight_singular_witness :
    getLogWeight 2 (logDeterminant Real.log) (fun i j => if i = 0 ∨ j = 0 then 0 else 3) =
      .error .SingularMatrix :=
  getLogWeight_singular Real.log 2 0 (by decide) _ (fun i j _ _ h => by simp [h])

/-- C7: for `n ≥ 1` and a host projection whose assembled matrix has a negative
determinant, `getLogWeight` fails with `NumericalDomainError`, which reaches the
caller as the result of the call: no number is returned. This is the case for
`n = 2` and `G = [[1, 2], [2, 1]]`, of determinant `-3`. -/
theorem getLogWeight_negative_det :
    (∀ (n : Nat) (p : Nat → Nat → ℝ), 1 ≤ n → (gramMatrix n p).det < 0 →
      getLogWeight n (logDeterminant Real.log) p = .error .NumericalDomainError) ∧
    (gramMatrix 2 (fun i j => if i = j then (1 : ℝ) else 2)).det = -3 ∧
    getLogWeight 2 (logDeterminant Real.log) (fun i j => if i = j then 1 else 2) =
      .error .NumericalDomainError := by
  have main : ∀ (n : Nat) (p : Nat → Nat → ℝ), 1 ≤ n → (gramMatrix n p).det < 0 →
      getLogWeight n (logDeterminant Real.log) p = .error .NumericalDomainError := by
    intro n p hn hneg
    rw [getLogWeight_eq n hn, logDeterminant_neg _ _ _ hneg]
    rfl
  have hdet : (gramMatrix 2 (fun i j => if i = j then (1 : ℝ) else 2)).det = -3 := by
    rw [det_gramMatrix_two]
    norm_num
  refine ⟨main, hdet, main 2 _ (by decide) ?_⟩
  rw [hdet]
  norm_num

theorem getLogWeight_negative_det_witness :
    getLogWeight 2 (logDeterminant Real.log) (fun i j => if i = j then 2 else 5) =
      .error .NumericalDomainError :=
  getLogWeight_negative_det.1 2 (fun i j => if i = j then 2 else 5) (by decide)
    (by rw [det_gramMatrix_two]; norm_num)

/-- C8: when no coordinate is configured (`n = 0`) the construction of the
strategy fails at configuration time, with `InvalidConfiguration`; every
strategy object that was constructed has `n ≥ 1` coordinates, so a query of its
log-weight never runs `getLogWeight` with `ndim = 0`: it runs the kernel on the
assembled `n × n` matrix with `n ≥ 1`. -/
theorem construction_rejects_no_coordinates :
    (∀ ao : ActionOptions, ao.args = [] →
      ReweightGeomFES.new ao = .error .InvalidConfiguration) ∧
    (∀ (ao : ActionOptions) (self : ReweightGeomFES), ReweightGeomFES.new ao = .ok self →
      1 ≤ self.base.getNumberOfArguments ∧
      self.base.getNumberOfArguments = ao.args.length ∧
      ∀ (logdet : (m : Nat) → DenseMatrix m ℝ → Except Error ℝ) (p : Nat → Nat → ℝ),
        (Session.query logdet { action := self, projection := p }).1 =
          (logdet self.base.getNumberOfArguments
            (gramMatrix self.base.getNumberOfArguments p)).map (fun v => v / 2)) := by
  constructor
  · intro ao h
    rw [ReweightGeomFES.new_eq, h]
    rfl
  · intro ao self h
    rw [ReweightGeomFES.new_eq] at h
    by_cases h0 : ao.args.length = 0
    · rw [if_pos h0] at h
      cases h
    · rw [if_neg h0] at h
      by_cases h1 : ao.keys.length = 0
      · rw [if_pos h1] at h
        cases h
        have hn : 1 ≤ ao.args.length := by omega
        refine ⟨hn, rfl, ?_⟩
        intro logdet p
        exact getLogWeight_eq ao.args.length hn logdet p
      · rw [if_neg h1] at h
        cases h

theorem construction_rejects_no_coordinates_witness :
    ReweightGeomFES.new { args := [], keys := [] } = .error .InvalidConfiguration ∧
    ReweightGeomFES.new { args := ["x", "y"], keys := [] } =
      .ok { base := { arguments := ["x", "y"], unread := [] } } ∧
    1 ≤ ReweightBase.getNumberOfArguments { arguments := ["x", "y"], unread := [] } :=
  ⟨construction_rejects_no_coordinates.1 { args := [], keys := [] } rfl, rfl,
    (construction_rejects_no_coordinates.2 { args := ["x", "y"], keys := [] }
      { base := { arguments := ["x", "y"], unread := [] } } rfl).1⟩

/-- C9: two successive queries of the log-weight with the host data unchanged
return the same result, and a query leaves the strategy object and the host
data as they were; the result is a function of `n` and of the host values
`p(i,j)` for `i ≤ j < n` only; and the matrix is rebuilt from scratch, since
the assembly loops give the same matrix and requests whatever the matrix held
before. -/
theorem getLogWeight_idempotent [Field α]
    (logdet : (m : Nat) → DenseMatrix m α → Except Error α) (s : Session α) :
    (Session.query logdet (Session.query logdet s).2).1 = (Session.query logdet s).1 ∧
    (Session.query logdet s).2 = s ∧
    (∀ (n : Nat) (p q : Nat → Nat → α), (∀ i j, i ≤ j → j < n → p i j = q i j) →
      getLogWeight n logdet p = getLogWeight n logdet q) ∧
    (∀ (n : Nat) (p : Nat → Nat → α) (g0 g1 : DenseMatrix n α),
      fillGrads n p { grads := g0, requests := [] } =
        fillGrads n p { grads := g1, requests := [] }) := by
  refine ⟨rfl, rfl, ?_, ?_⟩
  · intro n p q h
    rcases Nat.eq_zero_or_pos n with h0 | hpos
    · subst h0
      rw [getLogWeight_zero, getLogWeight_zero]
    · rw [getLogWeight_eq n hpos, getLogWeight_eq n hpos, gramMatrix_congr n p q h]
  · intro n p g0 g1
    rw [fillGrads_ok, fillGrads_ok]

theorem getLogWeight_idempotent_witness :
    getLogWeight 2 (logDeterminant Real.log) (fun i j => if i ≤ j then 2 else 7) =
      getLogWeight 2 (logDeterminant Real.log) (fun i j => if i ≤ j then 2 else 9) :=
  (getLogWeight_idempotent (logDeterminant Real.log)
    { action := { base := { arguments := ["x", "y"], unread := [] } },
      projection := fun _ _ => 0 }).2.2.1 2 _ _
    (fun i j hij _ => by simp [hij])

/-- C10: for every `n`, every permutation `s` of the coordinate indices and
every symmetric host projection `p`, `getLogWeight` over the reordered
coordinates (host projection `(i, j) ↦ p(s(i), s(j))`) returns what it returns
over the original order, with the kernel taken as the real function
`ln(det(.))`, and more generally with any kernel that reads its matrix through
the determinant only. -/
theorem getLogWeight_reorder (n : Nat) (s : Equiv.Perm (Fin n)) (p q : Nat → Nat → ℝ)
    (hsym : ∀ i j, i < n → j < n → p i j = p j i)
    (hq : ∀ a b : Fin n, q a.val b.val = p (s a).val (s b).val) :
    getLogWeight n (logdetTotal Real.log) q = getLogWeight n (logdetTotal Real.log) p ∧
    (∀ f : ℝ → Except Error ℝ,
      getLogWeight n (fun _ M => f M.det) q = getLogWeight n (fun _ M => f M.det) p) := by
  have hdet := det_gramMatrix_reorder n s p q hsym hq
  constructor
  · exact getLogWeight_congr_det n (fun d => .ok (Real.log d)) p q hdet
  · intro f
    exact getLogWeight_congr_det n f p q hdet

theorem getLogWeight_reorder_witness :
    getLogWeight 2 (logdetTotal Real.log) (fun i j => ((1 - i : ℕ) : ℝ) * ((1 - j : ℕ) : ℝ) + 1) =
      getLogWeight 2 (logdetTotal Real.log) (fun i j => (i : ℝ) * (j : ℝ) + 1) :=
  (getLogWeight_reorder 2 (Equiv.swap 0 1) (fun i j => (i : ℝ) * (j : ℝ) + 1)
    (fun i j => ((1 - i : ℕ) : ℝ) * ((1 - j : ℕ) : ℝ) + 1)
    (fun i j _ _ => by ring)
    (fun a b => by fin_cases a <;> fin_cases b <;> simp)).1

end PLMD
